import Mathlib

/-!
Verification development for the model-selection and recognition core of the
ASL recognizer repository.

The Python sources `my_model_selectors.py` and `my_recognizer.py` are embedded
shallowly below.  The external numerical collaborators (the `GaussianHMM`
trainer and scorer and `np.log`) are abstracted into an oracle record
`HMMOracle`: fitting and scoring are fallible functions into `Option`
(mirroring the `try ... except` handling in the source), and log-likelihoods
are rationals.  Everything else — the selection loops, the comparison and
tie-break logic, the bookkeeping dictionaries, and the recognizer — is
translated function-by-function from the source.
-/

namespace ASL

/-- A feature frame, i.e. one row of a flattened feature matrix. -/
abbrev Frame := List ℚ

/-- A flattened observation matrix `X`, a list of feature frames. -/
abbrev Obs := List Frame

/-- A fitted Gaussian HMM as produced by
`GaussianHMM(n_components=n, ...).fit(X, lengths)`.  The field `nStates`
records the `n_components` value the source passes to the constructor; `tag`
abstracts all fitted parameters chosen by the external trainer. -/
structure HMM where
  nStates : ℕ
  tag : ℕ
deriving DecidableEq

/-- Oracle for the external numerical collaborators.  `fitTag n X lengths`
models `GaussianHMM(n_components=n, ...).fit(X, lengths)`: `none` is the
exception path, `some t` a successful fit with fitted parameters `t`.
`score m X lengths` models `m.score(X, lengths)` (again `none` is the
exception path), and `ln` models `np.log` applied to a sequence count. -/
structure HMMOracle where
  fitTag : ℕ → Obs → List ℕ → Option ℕ
  score : HMM → Obs → List ℕ → Option ℚ
  ln : ℕ → ℚ

/-- Fitting with `n` hidden states: a successful fit carries the requested
`n_components = n`, together with the oracle-chosen fitted parameters. -/
def HMMOracle.fit (o : HMMOracle) (n : ℕ) (X : Obs) (lengths : List ℕ) : Option HMM :=
  (o.fitTag n X lengths).map fun t => ⟨n, t⟩

/-- State built by `ModelSelector.__init__`.  `hwords` is `all_word_Xlengths`
as an insertion-ordered association list (a Python dict preserves insertion
order and has unique keys); `sequences` is `all_word_sequences[this_word]`,
and `X`, `lengths` are `all_word_Xlengths[this_word]`. -/
structure ModelSelector where
  hwords : List (String × Obs × List ℕ)
  sequences : List (List Frame)
  X : Obs
  lengths : List ℕ
  this_word : String
  n_constant : ℕ
  min_n_components : ℕ
  max_n_components : ℕ

/-- Candidate range `range(self.min_n_components, self.max_n_components)`. -/
def selRange (s : ModelSelector) : List ℕ :=
  List.range' s.min_n_components (s.max_n_components - s.min_n_components)

/-- Translation of `ModelSelector.base_model`: fit this word's training data
with `num_states` hidden states, mapping the exception path to `none`. -/
def ModelSelector.base_model (o : HMMOracle) (s : ModelSelector) (num_states : ℕ) : Option HMM :=
  o.fit num_states s.X s.lengths

/-- Translation of `SelectorConstant.select`: always `base_model(n_constant)`. -/
def SelectorConstant.select (o : HMMOracle) (s : ModelSelector) : Option HMM :=
  ModelSelector.base_model o s s.n_constant

/-- Pointwise update of the `hmm_models` dictionary (`hmm_models[i] = v`). -/
def updateMap (f : ℕ → Option HMM) (i : ℕ) (v : Option HMM) : ℕ → Option HMM :=
  fun j => if j = i then v else f j

/-- Loop state shared by the three searching selectors: the `hmm_models`
dictionary, `best_score` (the BIC loop initializes it to `math.inf` and the
DIC/CV loops to `None`; both initial values are represented by `none` here,
see `betterMin` and `betterMax`), and `best_i`. -/
structure SelState where
  hmm_models : ℕ → Option HMM
  best_score : Option ℚ
  best_i : Option ℕ

/-- Translation of the BIC comparison `best_score is None or best_score > bic`
where `best_score` starts out as `math.inf` (represented by `none`): the first
finite score always wins, afterwards a strictly smaller score replaces. -/
def betterMin (best : Option ℚ) (q : ℚ) : Bool :=
  match best with
  | none => true
  | some b => decide (q < b)

/-- Translation of the DIC/CV comparison `best_score is None or best_score < x`
where `best_score` starts out as `None` (represented by `none`). -/
def betterMax (best : Option ℚ) (q : ℚ) : Bool :=
  match best with
  | none => true
  | some b => decide (b < q)

/-- Translation of the BIC value computed in `SelectorBIC.select`:
`num_of_parameters = i*i + 2*i*len(self.X[0]) - 1` (a Python integer),
`logN = np.log(len(self.lengths))`, `bic = -2*logL + num_of_parameters*logN`. -/
def bicScore (o : HMMOracle) (s : ModelSelector) (i : ℕ) (logL : ℚ) : ℚ :=
  let num_of_parameters : ℤ := (i : ℤ) * i + 2 * i * ((s.X.headD []).length : ℤ) - 1
  let logN := o.ln s.lengths.length
  let bic := -2 * logL + (num_of_parameters : ℚ) * logN
  bic

/-- Translation of one iteration of the `SelectorBIC.select` loop.  On the
exception path (`fit` fails, or the self-`score` fails after
`hmm_models[i] = model` was assigned) the handler performs
`hmm_models[i] = None`, so the net effect of the iteration is storing `none`;
on success the model is stored and the strict comparison
`best_score > bic` decides whether `best_score`/`best_i` are replaced. -/
def bicBody (o : HMMOracle) (s : ModelSelector) (st : SelState) (i : ℕ) : SelState :=
  match o.fit i s.X s.lengths with
  | none => { st with hmm_models := updateMap st.hmm_models i none }
  | some model =>
    match o.score model s.X s.lengths with
    | none => { st with hmm_models := updateMap st.hmm_models i none }
    | some logL =>
      let bic := bicScore o s i logL
      let st1 : SelState := { st with hmm_models := updateMap st.hmm_models i (some model) }
      if betterMin st.best_score bic then { st1 with best_score := some bic, best_i := some i }
      else st1

/-- Translation of `SelectorBIC.select`. -/
def SelectorBIC.select (o : HMMOracle) (s : ModelSelector) : Option HMM :=
  let st := (selRange s).foldl (bicBody o s) ⟨fun _ => none, none, none⟩
  match st.best_i with
  | none => none
  | some i => st.hmm_models i

/-- Translation of the inner per-other-word loop of `SelectorDIC.select`.
The running state is the triple `(logL, sum_logL, num_of_logs)`; note that the
source REUSES the variable `logL` (which entered the loop holding the
self-score) for the per-other-word normalized score
`logL = model.score(X2, lengths2) / len(lengths2)`.
A scoring exception, and likewise the `ZeroDivisionError` raised when
`len(lengths2) == 0`, is swallowed by the bare `except: pass`, leaving the
state unchanged. -/
def dicInner (o : HMMOracle) (this_word : String) (model : HMM)
    (st : ℚ × ℚ × ℕ) (entry : String × Obs × List ℕ) : ℚ × ℚ × ℕ :=
  if entry.1 = this_word then st
  else
    match o.score model entry.2.1 entry.2.2 with
    | none => st
    | some v =>
      if entry.2.2.length = 0 then st
      else (v / (entry.2.2.length : ℚ), st.2.1 + v / (entry.2.2.length : ℚ), st.2.2 + 1)

/-- Translation of the DIC value computed for one candidate in
`SelectorDIC.select`: run the per-other-word loop starting from the self-score
`logL`, then `dic = logL` (the current, possibly reassigned, `logL`) and
`if num_of_logs: dic -= sum_logL / num_of_logs`. -/
def dicScore (o : HMMOracle) (s : ModelSelector) (model : HMM) (logL : ℚ) : ℚ :=
  let r := s.hwords.foldl (dicInner o s.this_word model) (logL, 0, 0)
  if r.2.2 = 0 then r.1 else r.1 - r.2.1 / (r.2.2 : ℚ)

/-- Translation of one iteration of the `SelectorDIC.select` loop. -/
def dicBody (o : HMMOracle) (s : ModelSelector) (st : SelState) (i : ℕ) : SelState :=
  match o.fit i s.X s.lengths with
  | none => { st with hmm_models := updateMap st.hmm_models i none }
  | some model =>
    match o.score model s.X s.lengths with
    | none => { st with hmm_models := updateMap st.hmm_models i none }
    | some logL =>
      let dic := dicScore o s model logL
      let st1 : SelState := { st with hmm_models := updateMap st.hmm_models i (some model) }
      if betterMax st.best_score dic then { st1 with best_score := some dic, best_i := some i }
      else st1

/-- Translation of `SelectorDIC.select`. -/
def SelectorDIC.select (o : HMMOracle) (s : ModelSelector) : Option HMM :=
  let st := (selRange s).foldl (dicBody o s) ⟨fun _ => none, none, none⟩
  match st.best_i with
  | none => none
  | some i => st.hmm_models i

/-- Modelled from the spec: `combine_sequences` from `asl_utils` is an
external collaborator not contained in the sources; per the spec it converts
the indexed subset of a word's sequences into one flattened feature matrix
plus the list of per-sequence lengths, preserving the input index order. -/
def combine_sequences (idx : List ℕ) (seqs : List (List Frame)) : Obs × List ℕ :=
  ((idx.map fun j => seqs.getD j []).flatten, idx.map fun j => (seqs.getD j []).length)

/-- Modelled from the spec: sklearn's `KFold(n_splits=k)` without shuffling is
an external collaborator.  It partitions `range(n)` into `k` contiguous folds,
the first `n % k` of size `n / k + 1` and the rest of size `n / k`, and yields
`(train_indices, test_indices)` pairs in fold order. -/
def kfoldSplit (n k : ℕ) : List (List ℕ × List ℕ) :=
  (List.range k).map fun j =>
    let q := n / k
    let r := n % k
    let start := j * q + min j r
    let size := q + if j < r then 1 else 0
    let test := (List.range size).map (· + start)
    let train := (List.range n).filter fun x => decide (x < start) || decide (start + size ≤ x)
    (train, test)

/-- Per-candidate fold-loop state of `SelectorCV.select`:
`(sum_logL, best_score, best_model, num_of_models)`. -/
structure FoldState where
  sum_logL : ℚ
  best_score : Option ℚ
  best_model : Option HMM
  num_of_models : ℕ

/-- Translation of one fold iteration of `SelectorCV.select`: flatten the
train and held-out index subsets, fit on the train part and score against the
held-out part (a `ValueError` in either step skips the fold), then accumulate
the sum and count and keep the fold model with the strictly largest held-out
log-likelihood (`best_score is None or best_score < logL`). -/
def cvFoldBody (o : HMMOracle) (s : ModelSelector) (i : ℕ)
    (st : FoldState) (fold : List ℕ × List ℕ) : FoldState :=
  let tr := combine_sequences fold.1 s.sequences
  let te := combine_sequences fold.2 s.sequences
  match o.fit i tr.1 tr.2 with
  | none => st
  | some model =>
    match o.score model te.1 te.2 with
    | none => st
    | some logL =>
      let sum_logL := st.sum_logL + logL
      let num_of_models := st.num_of_models + 1
      if betterMax st.best_score logL then ⟨sum_logL, some logL, some model, num_of_models⟩
      else ⟨sum_logL, st.best_score, st.best_model, num_of_models⟩

/-- Translation of one candidate iteration of `SelectorCV.select`: run all
folds of `KFold(n_splits=min(3, len(self.lengths)))`; if no fold succeeded,
`continue` (the candidate is skipped entirely), otherwise store the best fold
model in `hmm_models[i]`, form `avg_logL = sum_logL / num_of_models`, and
compare with `best_score_overall` (held in the `best_score` field here) under
`best_score_overall is None or best_score_overall < avg_logL`. -/
def cvBody (o : HMMOracle) (s : ModelSelector) (st : SelState) (i : ℕ) : SelState :=
  let folds := kfoldSplit s.sequences.length (min 3 s.lengths.length)
  let r := folds.foldl (cvFoldBody o s i) ⟨0, none, none, 0⟩
  if r.num_of_models = 0 then st
  else
    let st1 : SelState := { st with hmm_models := updateMap st.hmm_models i r.best_model }
    let avg_logL := r.sum_logL / (r.num_of_models : ℚ)
    if betterMax st.best_score avg_logL then
      { st1 with best_score := some avg_logL, best_i := some i }
    else st1

/-- Translation of `SelectorCV.select`, including the
`if len(self.lengths) < 2: return None` guard that precedes the search. -/
def SelectorCV.select (o : HMMOracle) (s : ModelSelector) : Option HMM :=
  if s.lengths.length < 2 then none
  else
    let st := (selRange s).foldl (cvBody o s) ⟨fun _ => none, none, none⟩
    match st.best_i with
    | none => none
    | some i => st.hmm_models i

/-- Translation of the per-item dictionary built by `recognize`: for each
`(word, model)` of the models mapping in iteration order, `logL = -math.inf`;
when a model is present its score replaces `logL` unless scoring raises.
Values live in `WithBot ℚ` with `⊥` playing the role of `-math.inf`. -/
def recognizeItem (o : HMMOracle) (models : List (String × Option HMM))
    (item : Obs × List ℕ) : List (String × WithBot ℚ) :=
  models.map fun wm =>
    match wm.2 with
    | none => (wm.1, (⊥ : WithBot ℚ))
    | some m =>
      match o.score m item.1 item.2 with
      | none => (wm.1, (⊥ : WithBot ℚ))
      | some v => (wm.1, (v : WithBot ℚ))

/-- Translation of `max(local_probabilities, key=local_probabilities.get)`:
Python's `max` returns the first key attaining the maximal value in iteration
order, and raises `ValueError` on an empty mapping (modelled by `none`). -/
def maxByValue (l : List (String × WithBot ℚ)) : Option (String × WithBot ℚ) :=
  match l with
  | [] => none
  | x :: xs => some (xs.foldl (fun b y => if b.2 < y.2 then y else b) x)

/-- Translation of one iteration of the `recognize` loop over test items:
build the per-item dictionary, take its arg-max word and append to both
output lists.  The `max` call on an empty per-item mapping raises
`ValueError`, which nothing in the function catches; that abnormal
termination is modelled by `none`, which then propagates. -/
def recognizeBody (o : HMMOracle) (models : List (String × Option HMM))
    (acc : Option (List (List (String × WithBot ℚ)) × List String)) (item : Obs × List ℕ) :
    Option (List (List (String × WithBot ℚ)) × List String) :=
  match acc with
  | none => none
  | some pg =>
    let local_probabilities := recognizeItem o models item
    match maxByValue local_probabilities with
    | none => none
    | some best_guess =>
      some (pg.1 ++ [local_probabilities], pg.2 ++ [best_guess.1])

/-- Translation of `recognize`: iterate over the test items in index order,
building the probabilities and guesses lists. -/
def recognize (o : HMMOracle) (models : List (String × Option HMM))
    (test_set : List (Obs × List ℕ)) :
    Option (List (List (String × WithBot ℚ)) × List String) :=
  test_set.foldl (recognizeBody o models) (some ([], []))

/-!
Generic machinery: the three searching selectors all maintain a running best
score with a strict-comparison replacement test, so their loops are instances
of one generic fold.  `IsFirstMaxBy`/`IsFirstMinBy` state declaratively what
such a fold returns: the first element attaining the maximum (respectively
minimum) of the projected scores.
-/

/-- Declarative first-maximum: `c` occurs in `l`, every element strictly
before it has a strictly smaller projected score, and every element after it
has a score less than or equal to that of `c`. -/
def IsFirstMaxBy {α γ : Type} [LinearOrder α] (f : γ → α) (l : List γ) (c : γ) : Prop :=
  ∃ l₁ l₂, l = l₁ ++ c :: l₂ ∧ (∀ y ∈ l₁, f y < f c) ∧ (∀ y ∈ l₂, f y ≤ f c)

/-- Declarative first-minimum, dual to `IsFirstMaxBy`. -/
def IsFirstMinBy {α γ : Type} [LinearOrder α] (f : γ → α) (l : List γ) (c : γ) : Prop :=
  ∃ l₁ l₂, l = l₁ ++ c :: l₂ ∧ (∀ y ∈ l₁, f c < f y) ∧ (∀ y ∈ l₂, f c ≤ f y)

/-- Generic replacement step on an optional running best, scored by the first
component: the pair `x` replaces the accumulator exactly when the comparison
`repl` accepts it against the current best score. -/
def stepOf {γ : Type} (repl : Option ℚ → ℚ → Bool) (acc : Option (ℚ × γ)) (x : ℚ × γ) :
    Option (ℚ × γ) :=
  if repl (acc.map fun p => p.1) x.1 then some x else acc

lemma stepOf_mem {γ : Type} (repl : Option ℚ → ℚ → Bool) :
    ∀ (l : List (ℚ × γ)) (acc : Option (ℚ × γ)) (c : ℚ × γ),
      l.foldl (stepOf repl) acc = some c → acc = some c ∨ c ∈ l := by
  intro l
  induction l with
  | nil => intro acc c h; exact Or.inl h
  | cons x xs ih =>
    intro acc c h
    rw [List.foldl_cons] at h
    rcases ih _ _ h with h' | h'
    · unfold stepOf at h'
      by_cases hr : repl (acc.map fun p => p.1) x.1
      · simp [hr] at h'
        exact Or.inr (by simp [h'])
      · simp [hr] at h'
        exact Or.inl h'
    · exact Or.inr (List.mem_cons_of_mem _ h')

lemma stepOf_max_go {γ : Type} :
    ∀ (l : List (ℚ × γ)) (b : ℚ × γ),
      ∃ c, l.foldl (stepOf betterMax) (some b) = some c ∧
        IsFirstMaxBy (fun p => p.1) (b :: l) c := by
  intro l
  induction l with
  | nil =>
    intro b
    exact ⟨b, rfl, [], [], rfl, by simp, by simp⟩
  | cons x xs ih =>
    intro b
    rw [List.foldl_cons]
    by_cases h : b.1 < x.1
    · have hstep : stepOf betterMax (some b) x = some x := by
        simp [stepOf, betterMax, h]
      rw [hstep]
      obtain ⟨c, hf, l₁, l₂, hdec, hlt, hle⟩ := ih x
      have hbc : b.1 < c.1 := by
        cases l₁ with
        | nil =>
          simp only [List.nil_append] at hdec
          injection hdec with h1 h2
          exact h1 ▸ h
        | cons a as =>
          rw [List.cons_append] at hdec
          injection hdec with h1 h2
          exact lt_trans h (hlt x (h1 ▸ List.mem_cons_self a as))
      exact ⟨c, hf, b :: l₁, l₂, by rw [List.cons_append, ← hdec],
        fun y hy => (List.mem_cons.mp hy).elim (fun hyb => hyb ▸ hbc) (hlt y), hle⟩
    · have hstep : stepOf betterMax (some b) x = some b := by
        simp [stepOf, betterMax, h]
      rw [hstep]
      obtain ⟨c, hf, l₁, l₂, hdec, hlt, hle⟩ := ih b
      cases l₁ with
      | nil =>
        simp only [List.nil_append] at hdec
        injection hdec with h1 h2
        refine ⟨c, hf, [], x :: l₂, by simp [h1, h2], by simp, ?_⟩
        intro y hy
        rcases List.mem_cons.mp hy with rfl | hy
        · exact h1 ▸ le_of_not_lt h
        · exact hle y hy
      | cons a as =>
        rw [List.cons_append] at hdec
        injection hdec with h1 h2
        have hbc : b.1 < c.1 := hlt a (List.mem_cons_self a as) |>.trans_le (le_refl _) |> (h1 ▸ ·)
        refine ⟨c, hf, b :: x :: as, l₂, by rw [h2]; simp, ?_, hle⟩
        intro y hy
        rcases List.mem_cons.mp hy with rfl | hy
        · exact hbc
        · rcases List.mem_cons.mp hy with rfl | hy
          · exact lt_of_le_of_lt (le_of_not_lt h) hbc
          · exact hlt y (List.mem_cons_of_mem a hy)

lemma stepOf_min_go {γ : Type} :
    ∀ (l : List (ℚ × γ)) (b : ℚ × γ),
      ∃ c, l.foldl (stepOf betterMin) (some b) = some c ∧
        IsFirstMinBy (fun p => p.1) (b :: l) c := by
  intro l
  induction l with
  | nil =>
    intro b
    exact ⟨b, rfl, [], [], rfl, by simp, by simp⟩
  | cons x xs ih =>
    intro b
    rw [List.foldl_cons]
    by_cases h : x.1 < b.1
    · have hstep : stepOf betterMin (some b) x = some x := by
        simp [stepOf, betterMin, h]
      rw [hstep]
      obtain ⟨c, hf, l₁, l₂, hdec, hlt, hle⟩ := ih x
      have hbc : c.1 < b.1 := by
        cases l₁ with
        | nil =>
          simp only [List.nil_append] at hdec
          injection hdec with h1 h2
          exact h1 ▸ h
        | cons a as =>
          rw [List.cons_append] at hdec
          injection hdec with h1 h2
          exact lt_trans (hlt x (h1 ▸ List.mem_cons_self a as)) h
      exact ⟨c, hf, b :: l₁, l₂, by rw [List.cons_append, ← hdec],
        fun y hy => (List.mem_cons.mp hy).elim (fun hyb => hyb ▸ hbc) (hlt y), hle⟩
    · have hstep : stepOf betterMin (some b) x = some b := by
        simp [stepOf, betterMin, h]
      rw [hstep]
      obtain ⟨c, hf, l₁, l₂, hdec, hlt, hle⟩ := ih b
      cases l₁ with
      | nil =>
        simp only [List.nil_append] at hdec
        injection hdec with h1 h2
        refine ⟨c, hf, [], x :: l₂, by simp [h1, h2], by simp, ?_⟩
        intro y hy
        rcases List.mem_cons.mp hy with rfl | hy
        · exact h1 ▸ le_of_not_lt h
        · exact hle y hy
      | cons a as =>
        rw [List.cons_append] at hdec
        injection hdec with h1 h2
        have hbc : c.1 < b.1 := h1 ▸ hlt a (List.mem_cons_self a as)
        refine ⟨c, hf, b :: x :: as, l₂, by rw [h2]; simp, ?_, hle⟩
        intro y hy
        rcases List.mem_cons.mp hy with rfl | hy
        · exact hbc
        · rcases List.mem_cons.mp hy with rfl | hy
          · exact lt_of_lt_of_le hbc (le_of_not_lt h)
          · exact hlt y (List.mem_cons_of_mem a hy)

lemma stepOf_max_run {γ : Type} {l : List (ℚ × γ)} {c : ℚ × γ}
    (h : l.foldl (stepOf betterMax) none = some c) :
    IsFirstMaxBy (fun p => p.1) l c := by
  cases l with
  | nil => exact absurd h (by simp)
  | cons x xs =>
    rw [List.foldl_cons] at h
    have hstep : stepOf betterMax (none : Option (ℚ × γ)) x = some x := rfl
    rw [hstep] at h
    obtain ⟨c', hf, hmax⟩ := stepOf_max_go xs x
    rw [hf] at h
    injection h with h
    exact h ▸ hmax

lemma stepOf_min_run {γ : Type} {l : List (ℚ × γ)} {c : ℚ × γ}
    (h : l.foldl (stepOf betterMin) none = some c) :
    IsFirstMinBy (fun p => p.1) l c := by
  cases l with
  | nil => exact absurd h (by simp)
  | cons x xs =>
    rw [List.foldl_cons] at h
    have hstep : stepOf betterMin (none : Option (ℚ × γ)) x = some x := rfl
    rw [hstep] at h
    obtain ⟨c', hf, hmax⟩ := stepOf_min_go xs x
    rw [hf] at h
    injection h with h
    exact h ▸ hmax

lemma stepOf_max_none_iff {γ : Type} {l : List (ℚ × γ)} :
    l.foldl (stepOf betterMax) none = none ↔ l = [] := by
  constructor
  · intro h
    cases l with
    | nil => rfl
    | cons x xs =>
      rw [List.foldl_cons] at h
      have hstep : stepOf betterMax (none : Option (ℚ × γ)) x = some x := rfl
      rw [hstep] at h
      obtain ⟨c', hf, _⟩ := stepOf_max_go xs x
      rw [hf] at h
      exact absurd h (by simp)
  · intro h
    subst h
    rfl

lemma stepOf_min_none_iff {γ : Type} {l : List (ℚ × γ)} :
    l.foldl (stepOf betterMin) none = none ↔ l = [] := by
  constructor
  · intro h
    cases l with
    | nil => rfl
    | cons x xs =>
      rw [List.foldl_cons] at h
      have hstep : stepOf betterMin (none : Option (ℚ × γ)) x = some x := rfl
      rw [hstep] at h
      obtain ⟨c', hf, _⟩ := stepOf_min_go xs x
      rw [hf] at h
      exact absurd h (by simp)
  · intro h
    subst h
    rfl

/-- Generic selector loop body.  `cand i` packages the per-candidate attempt:
`none` when the candidate raised (its net bookkeeping effect being
`hmm_models[i] = None` exactly when `wNone` is true, as in the BIC/DIC loops,
and no write at all in the CV loop), `some (q, m)` when the candidate produced
a comparison score `q` and a model `m` to store. -/
def genBody (repl : Option ℚ → ℚ → Bool) (cand : ℕ → Option (ℚ × HMM)) (wNone : Bool)
    (st : SelState) (i : ℕ) : SelState :=
  match cand i with
  | none => if wNone then { st with hmm_models := updateMap st.hmm_models i none } else st
  | some p =>
    let st1 : SelState := { st with hmm_models := updateMap st.hmm_models i (some p.2) }
    if repl st.best_score p.1 then { st1 with best_score := some p.1, best_i := some i }
    else st1

/-- Successful candidates of a range, tagged with their score and index. -/
def candList (cand : ℕ → Option (ℚ × HMM)) (L : List ℕ) : List (ℚ × ℕ × HMM) :=
  L.filterMap fun i => (cand i).map fun p => (p.1, i, p.2)

lemma genRun (repl : Option ℚ → ℚ → Bool) (cand : ℕ → Option (ℚ × HMM)) (wNone : Bool) :
    ∀ (L : List ℕ) (st : SelState) (acc : Option (ℚ × ℕ × HMM)),
      L.Nodup →
      st.best_score = acc.map (fun x => x.1) →
      st.best_i = acc.map (fun x => x.2.1) →
      (∀ x, acc = some x → st.hmm_models x.2.1 = some x.2.2 ∧ x.2.1 ∉ L) →
      (L.foldl (genBody repl cand wNone) st).best_score =
          ((candList cand L).foldl (stepOf repl) acc).map (fun x => x.1) ∧
        (L.foldl (genBody repl cand wNone) st).best_i =
          ((candList cand L).foldl (stepOf repl) acc).map (fun x => x.2.1) ∧
        ∀ x, (candList cand L).foldl (stepOf repl) acc = some x →
          (L.foldl (genBody repl cand wNone) st).hmm_models x.2.1 = some x.2.2 := by
  intro L
  induction L with
  | nil =>
    intro st acc _ h1 h2 h3
    exact ⟨h1, h2, fun x hx => (h3 x hx).1⟩
  | cons i L ih =>
    intro st acc hnd h1 h2 h3
    have hiL : i ∉ L := (List.nodup_cons.mp hnd).1
    have hndL : L.Nodup := (List.nodup_cons.mp hnd).2
    rw [List.foldl_cons]
    cases hc : cand i with
    | none =>
      have hcl : candList cand (i :: L) = candList cand L := by
        simp [candList, List.filterMap_cons, hc]
      rw [hcl]
      have hb : genBody repl cand wNone st i =
          if wNone then { st with hmm_models := updateMap st.hmm_models i none } else st := by
        simp [genBody, hc]
      rw [hb]
      cases wNone with
      | false =>
        simpa using ih st acc hndL h1 h2
          (fun x hx => ⟨(h3 x hx).1, fun hm => (h3 x hx).2 (List.mem_cons_of_mem i hm)⟩)
      | true =>
        refine ih _ acc hndL h1 h2 ?_
        intro x hx
        have hne : x.2.1 ≠ i := fun he => (h3 x hx).2 (he ▸ List.mem_cons_self i L)
        refine ⟨?_, fun hm => (h3 x hx).2 (List.mem_cons_of_mem i hm)⟩
        simpa [updateMap, hne] using (h3 x hx).1
    | some p =>
      have hcl : candList cand (i :: L) = (p.1, i, p.2) :: candList cand L := by
        simp [candList, List.filterMap_cons, hc]
      rw [hcl, List.foldl_cons]
      cases hrep : repl (acc.map fun x => x.1) p.1 with
      | true =>
        have hb : genBody repl cand wNone st i =
            ⟨updateMap st.hmm_models i (some p.2), some p.1, some i⟩ := by
          simp [genBody, hc, h1, hrep]
        have hacc : stepOf repl acc (p.1, i, p.2) = some (p.1, i, p.2) := by
          simp [stepOf, hrep]
        rw [hb, hacc]
        refine ih _ _ hndL rfl rfl ?_
        intro x hx
        injection hx with hx
        subst hx
        exact ⟨by simp [updateMap], hiL⟩
      | false =>
        have hb : genBody repl cand wNone st i =
            ⟨updateMap st.hmm_models i (some p.2), st.best_score, st.best_i⟩ := by
          simp [genBody, hc, h1, hrep]
        have hacc : stepOf repl acc (p.1, i, p.2) = acc := by
          simp [stepOf, hrep]
        rw [hb, hacc]
        refine ih _ acc hndL h1 h2 ?_
        intro x hx
        have hne : x.2.1 ≠ i := fun he => (h3 x hx).2 (he ▸ List.mem_cons_self i L)
        refine ⟨?_, fun hm => (h3 x hx).2 (List.mem_cons_of_mem i hm)⟩
        simpa [updateMap, hne] using (h3 x hx).1

lemma genSelect (repl : Option ℚ → ℚ → Bool) (cand : ℕ → Option (ℚ × HMM)) (wNone : Bool)
    (L : List ℕ) (hnd : L.Nodup) :
    (match (L.foldl (genBody repl cand wNone) ⟨fun _ => none, none, none⟩).best_i with
     | none => none
     | some i => (L.foldl (genBody repl cand wNone) ⟨fun _ => none, none, none⟩).hmm_models i) =
      ((candList cand L).foldl (stepOf repl) none).map (fun x => x.2.2) := by
  obtain ⟨H1, H2, H3⟩ :=
    genRun repl cand wNone L ⟨fun _ => none, none, none⟩ none hnd rfl rfl (by simp)
  cases ha : (candList cand L).foldl (stepOf repl) none with
  | none =>
    have H2a : (L.foldl (genBody repl cand wNone) ⟨fun _ => none, none, none⟩).best_i = none := by
      rw [ha] at H2
      simpa using H2
    rw [H2a]
    rfl
  | some x =>
    have H2a : (L.foldl (genBody repl cand wNone) ⟨fun _ => none, none, none⟩).best_i =
        some x.2.1 := by
      rw [ha] at H2
      simpa using H2
    rw [H2a]
    exact H3 x ha

/-- Per-candidate outcome of one BIC loop iteration: the fit and the
self-score must both succeed, giving the BIC value and the fitted model. -/
def bicCand (o : HMMOracle) (s : ModelSelector) (i : ℕ) : Option (ℚ × HMM) :=
  (o.fit i s.X s.lengths).bind fun model =>
    (o.score model s.X s.lengths).map fun logL => (bicScore o s i logL, model)

lemma bicBody_eq_genBody (o : HMMOracle) (s : ModelSelector) :
    bicBody o s = genBody betterMin (bicCand o s) true := by
  funext st i
  unfold bicBody genBody bicCand
  cases hf : o.fit i s.X s.lengths with
  | none => simp
  | some model =>
    cases hs : o.score model s.X s.lengths with
    | none => simp [hs]
    | some logL => simp [hs]

lemma bicSelect_eq (o : HMMOracle) (s : ModelSelector) :
    SelectorBIC.select o s =
      ((candList (bicCand o s) (selRange s)).foldl (stepOf betterMin) none).map
        (fun x => x.2.2) := by
  have hnd : (selRange s).Nodup := List.nodup_range' _ _
  have h := genSelect betterMin (bicCand o s) true (selRange s) hnd
  rw [← h, SelectorBIC.select, bicBody_eq_genBody]

/-- Per-candidate outcome of one DIC loop iteration: fit and self-score must
both succeed, giving the DIC value computed by the inner loop and the model. -/
def dicCand (o : HMMOracle) (s : ModelSelector) (i : ℕ) : Option (ℚ × HMM) :=
  (o.fit i s.X s.lengths).bind fun model =>
    (o.score model s.X s.lengths).map fun logL => (dicScore o s model logL, model)

lemma dicBody_eq_genBody (o : HMMOracle) (s : ModelSelector) :
    dicBody o s = genBody betterMax (dicCand o s) true := by
  funext st i
  unfold dicBody genBody dicCand
  cases hf : o.fit i s.X s.lengths with
  | none => simp
  | some model =>
    cases hs : o.score model s.X s.lengths with
    | none => simp [hs]
    | some logL => simp [hs]

lemma dicSelect_eq (o : HMMOracle) (s : ModelSelector) :
    SelectorDIC.select o s =
      ((candList (dicCand o s) (selRange s)).foldl (stepOf betterMax) none).map
        (fun x => x.2.2) := by
  have hnd : (selRange s).Nodup := List.nodup_range' _ _
  have h := genSelect betterMax (dicCand o s) true (selRange s) hnd
  rw [← h, SelectorDIC.select, dicBody_eq_genBody]

/-- Per-fold outcome of the CV fold loop for candidate `i`: fit on the train
part of the fold and score against its held-out part; both must succeed. -/
def foldCand (o : HMMOracle) (s : ModelSelector) (i : ℕ) (fold : List ℕ × List ℕ) :
    Option (ℚ × HMM) :=
  let tr := combine_sequences fold.1 s.sequences
  let te := combine_sequences fold.2 s.sequences
  (o.fit i tr.1 tr.2).bind fun model =>
    (o.score model te.1 te.2).map fun logL => (logL, model)

/-- Held-out log-likelihoods and fold models of the successful folds of
candidate `i`, in fold order. -/
def cvFoldScores (o : HMMOracle) (s : ModelSelector) (i : ℕ) : List (ℚ × HMM) :=
  (kfoldSplit s.sequences.length (min 3 s.lengths.length)).filterMap (foldCand o s i)

lemma cvFoldBody_eq (o : HMMOracle) (s : ModelSelector) (i : ℕ) (st : FoldState)
    (f : List ℕ × List ℕ) :
    cvFoldBody o s i st f =
      match foldCand o s i f with
      | none => st
      | some p =>
        if betterMax st.best_score p.1 then
          ⟨st.sum_logL + p.1, some p.1, some p.2, st.num_of_models + 1⟩
        else ⟨st.sum_logL + p.1, st.best_score, st.best_model, st.num_of_models + 1⟩ := by
  simp only [cvFoldBody, foldCand]
  cases hf : o.fit i (combine_sequences f.1 s.sequences).1 (combine_sequences f.1 s.sequences).2 with
  | none => simp
  | some model =>
    cases hs : o.score model (combine_sequences f.2 s.sequences).1
        (combine_sequences f.2 s.sequences).2 with
    | none => simp [hs]
    | some logL => simp [hs]

lemma cvFoldRun (o : HMMOracle) (s : ModelSelector) (i : ℕ) :
    ∀ (fs : List (List ℕ × List ℕ)) (st : FoldState) (acc : Option (ℚ × HMM)),
      st.best_score = acc.map (fun p => p.1) →
      st.best_model = acc.map (fun p => p.2) →
      fs.foldl (cvFoldBody o s i) st =
        ⟨st.sum_logL + ((fs.filterMap (foldCand o s i)).map (fun p => p.1)).sum,
         ((fs.filterMap (foldCand o s i)).foldl (stepOf betterMax) acc).map (fun p => p.1),
         ((fs.filterMap (foldCand o s i)).foldl (stepOf betterMax) acc).map (fun p => p.2),
         st.num_of_models + (fs.filterMap (foldCand o s i)).length⟩ := by
  intro fs
  induction fs with
  | nil =>
    intro st acc h1 h2
    simp only [List.foldl_nil, List.filterMap_nil, List.map_nil, List.sum_nil, List.length_nil]
    cases st with
    | mk a b c d => simp_all
  | cons f fs ih =>
    intro st acc h1 h2
    rw [List.foldl_cons, List.filterMap_cons, cvFoldBody_eq]
    cases hc : foldCand o s i f with
    | none => exact ih st acc h1 h2
    | some p =>
      simp only [List.foldl_cons, List.map_cons, List.sum_cons, List.length_cons]
      by_cases hrep : betterMax st.best_score p.1 = true
      · rw [if_pos hrep]
        have hacc : stepOf betterMax acc p = some p := by
          unfold stepOf
          rw [← h1, hrep]
          simp
        rw [hacc,
          ih ⟨st.sum_logL + p.1, some p.1, some p.2, st.num_of_models + 1⟩ (some p) rfl rfl]
        simp only [FoldState.mk.injEq]
        exact ⟨by ring, trivial, trivial, by omega⟩
      · rw [if_neg hrep]
        have hacc : stepOf betterMax acc p = acc := by
          unfold stepOf
          rw [← h1]
          simp only [Bool.not_eq_true] at hrep
          rw [hrep]
          simp
        rw [hacc,
          ih ⟨st.sum_logL + p.1, st.best_score, st.best_model, st.num_of_models + 1⟩ acc h1 h2]
        simp only [FoldState.mk.injEq]
        exact ⟨by ring, trivial, trivial, by omega⟩

/-- Per-candidate outcome of one CV loop iteration: `none` when no fold of
candidate `i` both fit and scored (the candidate is skipped by `continue`),
otherwise the pair of `avg_logL` and the best fold model. -/
def cvCand (o : HMMOracle) (s : ModelSelector) (i : ℕ) : Option (ℚ × HMM) :=
  ((cvFoldScores o s i).foldl (stepOf betterMax) none).map fun p =>
    (((cvFoldScores o s i).map fun y => y.1).sum / ((cvFoldScores o s i).length : ℚ), p.2)

lemma cvBody_eq_genBody (o : HMMOracle) (s : ModelSelector) :
    cvBody o s = genBody betterMax (cvCand o s) false := by
  funext st i
  have hrun := cvFoldRun o s i (kfoldSplit s.sequences.length (min 3 s.lengths.length))
    ⟨0, none, none, 0⟩ none rfl rfl
  have hfs : (kfoldSplit s.sequences.length (min 3 s.lengths.length)).filterMap
      (foldCand o s i) = cvFoldScores o s i := rfl
  rw [hfs] at hrun
  simp only [cvBody]
  rw [hrun]
  cases hA : (cvFoldScores o s i).foldl (stepOf betterMax) none with
  | none =>
    have hnil : cvFoldScores o s i = [] := stepOf_max_none_iff.mp hA
    have hcand : cvCand o s i = none := by
      unfold cvCand
      rw [hA]
      rfl
    simp [genBody, hcand, hnil]
  | some p =>
    have hne : cvFoldScores o s i ≠ [] := by
      intro hnil
      rw [hnil] at hA
      exact Option.noConfusion hA
    have hlen : (cvFoldScores o s i).length ≠ 0 := fun hz => hne (List.length_eq_zero.mp hz)
    have hcand : cvCand o s i = some
        ((((cvFoldScores o s i).map fun y => y.1).sum / ((cvFoldScores o s i).length : ℚ)),
          p.2) := by
      unfold cvCand
      rw [hA]
      rfl
    simp [genBody, hcand, hA, hlen]

lemma cvSelect_eq (o : HMMOracle) (s : ModelSelector) (h : ¬ s.lengths.length < 2) :
    SelectorCV.select o s =
      ((candList (cvCand o s) (selRange s)).foldl (stepOf betterMax) none).map
        (fun x => x.2.2) := by
  have hnd : (selRange s).Nodup := List.nodup_range' _ _
  have hgen := genSelect betterMax (cvCand o s) false (selRange s) hnd
  rw [← hgen]
  unfold SelectorCV.select
  rw [if_neg h, cvBody_eq_genBody]

/-!
Recognizer lemmas.
-/

lemma foldl_maxSnd_go {α β : Type} [LinearOrder β] :
    ∀ (l : List (α × β)) (b : α × β),
      ∃ c, l.foldl (fun acc y => if acc.2 < y.2 then y else acc) b = c ∧
        IsFirstMaxBy (fun p => p.2) (b :: l) c := by
  intro l
  induction l with
  | nil =>
    intro b
    exact ⟨b, rfl, [], [], rfl, by simp, by simp⟩
  | cons x xs ih =>
    intro b
    rw [List.foldl_cons]
    by_cases h : b.2 < x.2
    · rw [if_pos h]
      obtain ⟨c, hf, l₁, l₂, hdec, hlt, hle⟩ := ih x
      have hbc : b.2 < c.2 := by
        cases l₁ with
        | nil =>
          simp only [List.nil_append] at hdec
          injection hdec with h1 h2
          exact h1 ▸ h
        | cons a as =>
          rw [List.cons_append] at hdec
          injection hdec with h1 h2
          exact lt_trans h (hlt x (h1 ▸ List.mem_cons_self a as))
      exact ⟨c, hf, b :: l₁, l₂, by rw [List.cons_append, ← hdec],
        fun y hy => (List.mem_cons.mp hy).elim (fun hyb => hyb ▸ hbc) (hlt y), hle⟩
    · rw [if_neg h]
      obtain ⟨c, hf, l₁, l₂, hdec, hlt, hle⟩ := ih b
      cases l₁ with
      | nil =>
        simp only [List.nil_append] at hdec
        injection hdec with h1 h2
        refine ⟨c, hf, [], x :: l₂, by simp [← h1, h2], by simp, ?_⟩
        intro y hy
        rcases List.mem_cons.mp hy with rfl | hy
        · exact h1 ▸ le_of_not_lt h
        · exact hle y hy
      | cons a as =>
        rw [List.cons_append] at hdec
        injection hdec with h1 h2
        have hbc : b.2 < c.2 := h1 ▸ hlt a (List.mem_cons_self a as)
        refine ⟨c, hf, b :: x :: as, l₂, by rw [h2]; simp, ?_, hle⟩
        intro y hy
        rcases List.mem_cons.mp hy with rfl | hy
        · exact hbc
        · rcases List.mem_cons.mp hy with rfl | hy
          · exact lt_of_le_of_lt (le_of_not_lt h) hbc
          · exact hlt y (List.mem_cons_of_mem a hy)

lemma maxByValue_spec {l : List (String × WithBot ℚ)} (h : l ≠ []) :
    ∃ c, maxByValue l = some c ∧ IsFirstMaxBy (fun p => p.2) l c := by
  cases l with
  | nil => exact absurd rfl h
  | cons x xs =>
    obtain ⟨c, hf, hmax⟩ := foldl_maxSnd_go xs x
    exact ⟨c, by rw [maxByValue, hf], hmax⟩

lemma recognizeItem_ne_nil (o : HMMOracle) {models : List (String × Option HMM)}
    (h : models ≠ []) (item : Obs × List ℕ) : recognizeItem o models item ≠ [] := by
  unfold recognizeItem
  simpa using h

lemma recognize_go (o : HMMOracle) {models : List (String × Option HMM)} (h : models ≠ []) :
    ∀ (ts : List (Obs × List ℕ)) (ps : List (List (String × WithBot ℚ))) (gs : List String),
      ts.foldl (recognizeBody o models) (some (ps, gs)) =
        some (ps ++ ts.map (recognizeItem o models),
          gs ++ ts.map fun item =>
            ((maxByValue (recognizeItem o models item)).map (fun c => c.1)).getD ("")) := by
  intro ts
  induction ts with
  | nil =>
    intro ps gs
    simp
  | cons t ts ih =>
    intro ps gs
    rw [List.foldl_cons]
    obtain ⟨c, hc, _⟩ := maxByValue_spec (recognizeItem_ne_nil o h t)
    have hb : recognizeBody o models (some (ps, gs)) t =
        some (ps ++ [recognizeItem o models t], gs ++ [c.1]) := by
      simp only [recognizeBody, hc]
    rw [hb, ih]
    simp only [List.map_cons, List.append_assoc, List.singleton_append, hc,
      Option.map_some, Option.getD_some]
    rfl

lemma recognize_eq (o : HMMOracle) {models : List (String × Option HMM)} (h : models ≠ [])
    (ts : List (Obs × List ℕ)) :
    recognize o models ts =
      some (ts.map (recognizeItem o models),
        ts.map fun item =>
          ((maxByValue (recognizeItem o models item)).map (fun c => c.1)).getD ("")) := by
  unfold recognize
  rw [recognize_go o h ts [] []]
  simp

lemma recognize_none_of_empty (o : HMMOracle) {ts : List (Obs × List ℕ)} (ht : ts ≠ []) :
    recognize o [] ts = none := by
  cases ts with
  | nil => exact absurd rfl ht
  | cons t ts =>
    unfold recognize
    rw [List.foldl_cons]
    have hb : recognizeBody o [] (some ([], [])) t = none := rfl
    rw [hb]
    clear hb ht
    induction ts with
    | nil => rfl
    | cons u ts ih =>
      rw [List.foldl_cons]
      exact ih

/-!
Small unpacking lemmas used by the claim theorems.
-/

lemma mem_selRange {s : ModelSelector} {i : ℕ} :
    i ∈ selRange s ↔ s.min_n_components ≤ i ∧ i < s.max_n_components := by
  unfold selRange
  rw [List.mem_range'_1]
  omega

lemma fit_nStates {o : HMMOracle} {n : ℕ} {X : Obs} {l : List ℕ} {m : HMM}
    (h : o.fit n X l = some m) : m.nStates = n := by
  unfold HMMOracle.fit at h
  cases ht : o.fitTag n X l with
  | none => rw [ht] at h; exact Option.noConfusion h
  | some t =>
    rw [ht] at h
    rw [Option.map_some'] at h
    injection h with h
    rw [← h]

lemma bicCand_some {o : HMMOracle} {s : ModelSelector} {i : ℕ} {p : ℚ × HMM}
    (h : bicCand o s i = some p) :
    ∃ model logL, o.fit i s.X s.lengths = some model ∧
      o.score model s.X s.lengths = some logL ∧ p = (bicScore o s i logL, model) := by
  unfold bicCand at h
  cases hf : o.fit i s.X s.lengths with
  | none => rw [hf] at h; exact Option.noConfusion h
  | some model =>
    rw [hf, Option.some_bind] at h
    cases hs : o.score model s.X s.lengths with
    | none => rw [hs] at h; exact Option.noConfusion h
    | some logL =>
      rw [hs, Option.map_some'] at h
      injection h with h
      exact ⟨model, logL, rfl, hs, h.symm⟩

lemma bicCand_none_iff {o : HMMOracle} {s : ModelSelector} {i : ℕ} :
    bicCand o s i = none ↔
      (o.fit i s.X s.lengths = none ∨
        ∃ model, o.fit i s.X s.lengths = some model ∧ o.score model s.X s.lengths = none) := by
  unfold bicCand
  cases hf : o.fit i s.X s.lengths with
  | none => simp
  | some model =>
    cases hs : o.score model s.X s.lengths with
    | none => simp [hs]
    | some logL => simp [hs]

lemma dicCand_some {o : HMMOracle} {s : ModelSelector} {i : ℕ} {p : ℚ × HMM}
    (h : dicCand o s i = some p) :
    ∃ model logL, o.fit i s.X s.lengths = some model ∧
      o.score model s.X s.lengths = some logL ∧ p = (dicScore o s model logL, model) := by
  unfold dicCand at h
  cases hf : o.fit i s.X s.lengths with
  | none => rw [hf] at h; exact Option.noConfusion h
  | some model =>
    rw [hf, Option.some_bind] at h
    cases hs : o.score model s.X s.lengths with
    | none => rw [hs] at h; exact Option.noConfusion h
    | some logL =>
      rw [hs, Option.map_some'] at h
      injection h with h
      exact ⟨model, logL, rfl, hs, h.symm⟩

lemma foldCand_some {o : HMMOracle} {s : ModelSelector} {i : ℕ} {f : List ℕ × List ℕ}
    {p : ℚ × HMM} (h : foldCand o s i f = some p) :
    ∃ model logL,
      o.fit i (combine_sequences f.1 s.sequences).1 (combine_sequences f.1 s.sequences).2 =
        some model ∧
      o.score model (combine_sequences f.2 s.sequences).1 (combine_sequences f.2 s.sequences).2 =
        some logL ∧ p = (logL, model) := by
  simp only [foldCand] at h
  cases hf : o.fit i (combine_sequences f.1 s.sequences).1
      (combine_sequences f.1 s.sequences).2 with
  | none => rw [hf] at h; exact Option.noConfusion h
  | some model =>
    rw [hf, Option.some_bind] at h
    cases hs : o.score model (combine_sequences f.2 s.sequences).1
        (combine_sequences f.2 s.sequences).2 with
    | none => rw [hs] at h; exact Option.noConfusion h
    | some logL =>
      rw [hs, Option.map_some'] at h
      injection h with h
      exact ⟨model, logL, rfl, hs, h.symm⟩

lemma cvCand_some {o : HMMOracle} {s : ModelSelector} {i : ℕ} {p : ℚ × HMM}
    (h : cvCand o s i = some p) :
    ∃ b, (cvFoldScores o s i).foldl (stepOf betterMax) none = some b ∧
      p = (((cvFoldScores o s i).map fun y => y.1).sum / ((cvFoldScores o s i).length : ℚ),
        b.2) := by
  unfold cvCand at h
  cases hb : (cvFoldScores o s i).foldl (stepOf betterMax) none with
  | none => rw [hb] at h; exact Option.noConfusion h
  | some b =>
    rw [hb, Option.map_some'] at h
    injection h with h
    exact ⟨b, rfl, h.symm⟩

lemma cvCand_none_iff {o : HMMOracle} {s : ModelSelector} {i : ℕ} :
    cvCand o s i = none ↔ cvFoldScores o s i = [] := by
  unfold cvCand
  cases hb : (cvFoldScores o s i).foldl (stepOf betterMax) none with
  | none => simpa using stepOf_max_none_iff.mp hb
  | some b =>
    simp only [Option.map_some']
    constructor
    · intro hc
      exact Option.noConfusion hc
    · intro hnil
      rw [hnil] at hb
      exact Option.noConfusion hb

lemma candList_mem {cand : ℕ → Option (ℚ × HMM)} {L : List ℕ} {x : ℚ × ℕ × HMM}
    (hx : x ∈ candList cand L) : x.2.1 ∈ L ∧ cand x.2.1 = some (x.1, x.2.2) := by
  obtain ⟨i, hiL, hmap⟩ := List.mem_filterMap.mp hx
  cases hc : cand i with
  | none => rw [hc] at hmap; exact Option.noConfusion hmap
  | some p =>
    rw [hc, Option.map_some'] at hmap
    injection hmap with hmap
    subst hmap
    exact ⟨hiL, hc⟩

lemma candList_nil_iff {cand : ℕ → Option (ℚ × HMM)} {L : List ℕ} :
    candList cand L = [] ↔ ∀ i ∈ L, cand i = none := by
  unfold candList
  rw [List.filterMap_eq_nil_iff]
  constructor
  · intro h i hi
    have := h i hi
    cases hc : cand i with
    | none => rfl
    | some p => rw [hc] at this; exact Option.noConfusion this
  · intro h i hi
    rw [h i hi]
    rfl

lemma dicInner_skip (o : HMMOracle) (this_word : String) (model : HMM) :
    ∀ (l : List (String × Obs × List ℕ)) (st : ℚ × ℚ × ℕ),
      (∀ e ∈ l, e.1 = this_word) → l.foldl (dicInner o this_word model) st = st := by
  intro l
  induction l with
  | nil => intro st _; rfl
  | cons e l ih =>
    intro st h
    rw [List.foldl_cons]
    have he : dicInner o this_word model st e = st := by
      unfold dicInner
      rw [if_pos (h e (List.mem_cons_self e l))]
    rw [he]
    exact ih st fun x hx => h x (List.mem_cons_of_mem e hx)

/-!
Concrete fixtures used by witnesses and counterexamples.
-/

/-- Oracle on which every fit succeeds, every score is `1`, and `ln` is `1`. -/
def oracleAll : HMMOracle :=
  ⟨fun _ _ _ => some 0, fun _ _ _ => some 1, fun _ => 1⟩

/-- Oracle on which every fit succeeds but every score fails. -/
def oracleNoScore : HMMOracle :=
  ⟨fun _ _ _ => some 0, fun _ _ _ => none, fun _ => 1⟩

/-- Oracle on which every fit fails. -/
def oracleNoFit : HMMOracle :=
  ⟨fun _ _ _ => none, fun _ _ _ => some 1, fun _ => 1⟩

/-- Oracle for the DIC failing input: a fitted model scores `2` on the other
word's data `[[5]]` and `10` on anything else (in particular on the target
word's own training data). -/
def oracleDic : HMMOracle :=
  ⟨fun _ _ _ => some 0, fun _ X _ => if X = [[5]] then some 2 else some 10, fun _ => 1⟩

/-- One-word corpus selector: word `A` has the single sequence `[[1]]`. -/
def selA : ModelSelector :=
  ⟨[("A", [[1]], [1])], [[[1]]], [[1]], [1], "A", 3, 2, 4⟩

/-- Selector over the candidate range `[2, 3)` with one word `A`. -/
def selB : ModelSelector :=
  ⟨[("A", [[1]], [1])], [[[1]]], [[1]], [1], "A", 3, 2, 3⟩

/-- Two-word corpus for the DIC failing input: the target word `A` with data
`[[1]]`, and the other word `B` with one sequence of one frame, `[[5]]`. -/
def selDic : ModelSelector :=
  ⟨[("A", [[1]], [1]), ("B", [[5]], [1])], [[[1]]], [[1]], [1], "A", 3, 2, 4⟩

/-- Selector whose word has a single training sequence (`lengths = [1]`). -/
def selOne : ModelSelector :=
  ⟨[("A", [[1]], [1])], [[[1]]], [[1]], [1], "A", 3, 2, 10⟩

/-- Selector whose word has two training sequences, for the CV strategy. -/
def selCV : ModelSelector :=
  ⟨[("A", [[1], [2]], [1, 1])], [[[1]], [[2]]], [[1], [2]], [1, 1], "A", 3, 2, 3⟩

/-- Selector whose `n_constant = 11` lies outside the range `[2, 10)`. -/
def selConst : ModelSelector :=
  ⟨[("A", [[1]], [1])], [[[1]]], [[1]], [1], "A", 11, 2, 10⟩

/-- A one-sequence, one-frame test item. -/
def itemA : Obs × List ℕ := ([[1]], [1])

/-- Another one-sequence, one-frame test item. -/
def itemB : Obs × List ℕ := ([[2]], [1])

/-!
Claim theorems.
-/

/-- C1: the claim states that the DIC score used to rank a candidate equals
`logL_self` minus the mean normalized score over the other words.  The code
instead reuses the variable `logL` inside the per-other-word loop, so after at
least one other word scores successfully, `dic = logL - sum/num` starts from
the LAST other word's normalized score, not from `logL_self`.  At the failing
input below the self-score is `10` and the single other word `B` (one
sequence, one frame) scores `2`, so the claim requires `10 - 2 = 8`, while the
code computes `2 - 2 = 0`.  This contradicts the source's own docstring
`DIC = log(P(X(i)) - 1/(M-1)SUM(log(P(X(all but i))`. -/
theorem dic_score_shadowed_logL :
    dicScore oracleDic selDic ⟨2, 0⟩ 10 = 0 ∧ (10 : ℚ) - 2 = 8 ∧ (0 : ℚ) ≠ 8 := by
  refine ⟨?_, by norm_num, by norm_num⟩
  have hBA : ¬ (("B" : String) = "A") := by decide
  simp only [dicScore, dicInner, selDic, oracleDic, List.foldl_cons, List.foldl_nil,
    if_neg hBA]
  norm_num

/-- C2: for every candidate whose fit and self-score succeed, the BIC value
recorded (and used in the `best_score > bic` comparison, here in the branch
where the candidate wins) equals `-2·logL + p·ln(numTrainingSequences)` with
`p = n² + 2·n·D − 1`, `D` the length of one feature frame and
`numTrainingSequences` the length of the lengths list. -/
theorem bic_candidate_score_formula (o : HMMOracle) (s : ModelSelector) (st : SelState)
    (i : ℕ) (model : HMM) (logL : ℚ)
    (h1 : o.fit i s.X s.lengths = some model)
    (h2 : o.score model s.X s.lengths = some logL)
    (h3 : betterMin st.best_score (bicScore o s i logL) = true) :
    (bicBody o s st i).best_score =
      some (-2 * logL +
        (((i : ℤ) ^ 2 + 2 * (i : ℤ) * ((s.X.headD []).length : ℤ) - 1 : ℤ) : ℚ) *
          o.ln s.lengths.length) ∧
    (bicBody o s st i).best_i = some i := by
  have hbic : bicScore o s i logL =
      -2 * logL +
        (((i : ℤ) ^ 2 + 2 * (i : ℤ) * ((s.X.headD []).length : ℤ) - 1 : ℤ) : ℚ) *
          o.ln s.lengths.length := by
    unfold bicScore
    push_cast
    ring
  constructor
  · simp only [bicBody, h1, h2]
    rw [if_pos h3, hbic]
  · simp only [bicBody, h1, h2]
    rw [if_pos h3]

/-- Witness for `bic_candidate_score_formula` at a concrete input. -/
theorem bic_candidate_score_formula_witness :
    oracleAll.fit 2 selA.X selA.lengths = some ⟨2, 0⟩ ∧
    oracleAll.score ⟨2, 0⟩ selA.X selA.lengths = some 1 ∧
    betterMin (SelState.mk (fun _ => none) none none).best_score (bicScore oracleAll selA 2 1) =
      true ∧
    ((bicBody oracleAll selA ⟨fun _ => none, none, none⟩ 2).best_score =
      some (-2 * 1 +
        ((((2 : ℕ) : ℤ) ^ 2 + 2 * ((2 : ℕ) : ℤ) * ((selA.X.headD []).length : ℤ) - 1 : ℤ) : ℚ) *
          oracleAll.ln selA.lengths.length) ∧
     (bicBody oracleAll selA ⟨fun _ => none, none, none⟩ 2).best_i = some 2) :=
  ⟨rfl, rfl, rfl, bic_candidate_score_formula oracleAll selA ⟨fun _ => none, none, none⟩
    2 ⟨2, 0⟩ 1 rfl rfl rfl⟩

/-- C4: whenever a word has fewer than two training sequences, the CV
strategy returns no model, for every oracle (in particular the guard precedes
every fit attempt, so no fit influences the result). -/
theorem cv_under_two_sequences_no_model (o : HMMOracle) (s : ModelSelector)
    (h : s.lengths.length < 2) : SelectorCV.select o s = none := by
  unfold SelectorCV.select
  rw [if_pos h]

/-- Witness for `cv_under_two_sequences_no_model` at a concrete input. -/
theorem cv_under_two_sequences_no_model_witness :
    selOne.lengths.length < 2 ∧ SelectorCV.select oracleAll selOne = none :=
  ⟨by decide, cv_under_two_sequences_no_model oracleAll selOne (by decide)⟩

/-- C9: when every entry of the full corpus carries the target word itself (in
particular when the corpus contains only that word), the per-other-word loop
skips every entry, so for every candidate whose fit and self-score succeed the
DIC score attached to that candidate (the first component of `dicCand`, which
`dicBody` compares and records) is exactly the self-score `logL_self`. -/
theorem dic_single_word_corpus (o : HMMOracle) (s : ModelSelector)
    (h : ∀ e ∈ s.hwords, e.1 = s.this_word) :
    ∀ i p, dicCand o s i = some p →
      ∃ model logL, o.fit i s.X s.lengths = some model ∧
        o.score model s.X s.lengths = some logL ∧ p.1 = logL := by
  intro i p hp
  obtain ⟨model, logL, hf, hs, hpe⟩ := dicCand_some hp
  refine ⟨model, logL, hf, hs, ?_⟩
  subst hpe
  show dicScore o s model logL = logL
  simp only [dicScore]
  rw [dicInner_skip o s.this_word model s.hwords (logL, 0, 0) h]
  simp

/-- Witness for `dic_single_word_corpus` at a concrete input. -/
theorem dic_single_word_corpus_witness :
    (∀ e ∈ selA.hwords, e.1 = selA.this_word) ∧
    (∃ model logL, oracleAll.fit 2 selA.X selA.lengths = some model ∧
      oracleAll.score model selA.X selA.lengths = some logL ∧
      (((1 : ℚ), (⟨2, 0⟩ : HMM)) : ℚ × HMM).1 = logL) :=
  ⟨by decide, dic_single_word_corpus oracleAll selA (by decide) 2 (1, ⟨2, 0⟩) rfl⟩

/-- C3 counterexample: on a candidate range `[2, 3)` with an oracle whose fit
always succeeds but whose self-score always fails, the BIC strategy returns no
model although candidate `2` did not fail to fit — refuting the claimed
"no model if and only if every candidate failed to fit". -/
theorem bic_no_model_despite_fit :
    SelectorBIC.select oracleNoScore selB = none ∧
      oracleNoScore.fit 2 selB.X selB.lengths = some ⟨2, 0⟩ ∧ (2 : ℕ) ∈ selRange selB := by
  refine ⟨?_, rfl, by decide⟩
  rfl

/-- C3 (amended): the BIC strategy returns no model iff every candidate in the
range failed to fit OR to self-score, and otherwise returns the fitted model
of the candidate achieving the minimum BIC among the candidates whose fit and
self-score both succeeded, the first such candidate winning ties (strict
comparison): its BIC is strictly below every earlier successful candidate's
and less than or equal to every later one's. -/
theorem bic_selection_characterization (o : HMMOracle) (s : ModelSelector) :
    (SelectorBIC.select o s = none ↔
      ∀ i ∈ selRange s,
        o.fit i s.X s.lengths = none ∨
          ∃ model, o.fit i s.X s.lengths = some model ∧ o.score model s.X s.lengths = none) ∧
    (∀ m, SelectorBIC.select o s = some m →
      ∃ i logL, s.min_n_components ≤ i ∧ i < s.max_n_components ∧
        o.fit i s.X s.lengths = some m ∧ o.score m s.X s.lengths = some logL ∧
        IsFirstMinBy (fun x => x.1) (candList (bicCand o s) (selRange s))
          (bicScore o s i logL, i, m)) := by
  constructor
  · rw [bicSelect_eq]
    constructor
    · intro hnone
      have hfold : (candList (bicCand o s) (selRange s)).foldl (stepOf betterMin) none =
          none := by
        cases hA : (candList (bicCand o s) (selRange s)).foldl (stepOf betterMin) none with
        | none => rfl
        | some x => rw [hA] at hnone; exact Option.noConfusion hnone
      have hnil := stepOf_min_none_iff.mp hfold
      intro i hi
      exact bicCand_none_iff.mp (candList_nil_iff.mp hnil i hi)
    · intro hall
      have hnil : candList (bicCand o s) (selRange s) = [] :=
        candList_nil_iff.mpr fun i hi => bicCand_none_iff.mpr (hall i hi)
      rw [hnil]
      rfl
  · intro m hm
    rw [bicSelect_eq] at hm
    cases hA : (candList (bicCand o s) (selRange s)).foldl (stepOf betterMin) none with
    | none => rw [hA] at hm; exact Option.noConfusion hm
    | some x =>
      rw [hA, Option.map_some'] at hm
      injection hm with hm
      subst hm
      have hmin := stepOf_min_run hA
      have hx : x ∈ candList (bicCand o s) (selRange s) := by
        obtain ⟨l₁, l₂, hdec, _, _⟩ := hmin
        rw [hdec]
        exact List.mem_append_right _ (List.mem_cons_self x l₂)
      obtain ⟨hiL, hcand⟩ := candList_mem hx
      obtain ⟨model, logL, hf, hs, hpe⟩ := bicCand_some hcand
      have hq : x.1 = bicScore o s x.2.1 logL := congrArg Prod.fst hpe
      have hm2 : x.2.2 = model := congrArg Prod.snd hpe
      refine ⟨x.2.1, logL, (mem_selRange.mp hiL).1, (mem_selRange.mp hiL).2, ?_, ?_, ?_⟩
      · rw [hm2]
        exact hf
      · rw [hm2]
        exact hs
      · rw [← hq]
        exact hmin

/-- Witness for `bic_selection_characterization`: on an oracle whose fit
always fails, the "no model" direction applies. -/
theorem bic_selection_characterization_witness :
    SelectorBIC.select oracleNoFit selB = none :=
  (bic_selection_characterization oracleNoFit selB).1.mpr fun _ _ => Or.inl rfl

/-- C5: the CV strategy returns no model iff the guard fires (fewer than two
training sequences) or no candidate produced a successful fold; a returned
model is the best-fold model (highest held-out log-likelihood within its
candidate, first fold winning ties) of the candidate with the highest
`avg_logL` across candidates that had at least one successful fold, the first
such candidate winning ties under the strict comparison. -/
theorem cv_selection_characterization (o : HMMOracle) (s : ModelSelector) :
    (SelectorCV.select o s = none ↔
      (s.lengths.length < 2 ∨ ∀ i ∈ selRange s, cvFoldScores o s i = [])) ∧
    (∀ m, SelectorCV.select o s = some m →
      2 ≤ s.lengths.length ∧
      ∃ i q, s.min_n_components ≤ i ∧ i < s.max_n_components ∧
        IsFirstMaxBy (fun y => y.1) (cvFoldScores o s i) (q, m) ∧
        IsFirstMaxBy (fun x => x.1) (candList (cvCand o s) (selRange s))
          ((((cvFoldScores o s i).map fun y => y.1).sum / ((cvFoldScores o s i).length : ℚ)),
            i, m)) := by
  by_cases hg : s.lengths.length < 2
  · have hsel : SelectorCV.select o s = none := by
      unfold SelectorCV.select
      rw [if_pos hg]
    refine ⟨⟨fun _ => Or.inl hg, fun _ => hsel⟩, ?_⟩
    intro m hm
    rw [hsel] at hm
    exact Option.noConfusion hm
  · constructor
    · rw [cvSelect_eq o s hg]
      constructor
      · intro hnone
        refine Or.inr ?_
        have hfold : (candList (cvCand o s) (selRange s)).foldl (stepOf betterMax) none =
            none := by
          cases hA : (candList (cvCand o s) (selRange s)).foldl (stepOf betterMax) none with
          | none => rfl
          | some x => rw [hA] at hnone; exact Option.noConfusion hnone
        have hnil := stepOf_max_none_iff.mp hfold
        intro i hi
        exact cvCand_none_iff.mp (candList_nil_iff.mp hnil i hi)
      · intro h
        rcases h with h | hall
        · exact absurd h hg
        · have hnil : candList (cvCand o s) (selRange s) = [] :=
            candList_nil_iff.mpr fun i hi => cvCand_none_iff.mpr (hall i hi)
          rw [hnil]
          rfl
    · intro m hm
      rw [cvSelect_eq o s hg] at hm
      refine ⟨by omega, ?_⟩
      cases hA : (candList (cvCand o s) (selRange s)).foldl (stepOf betterMax) none with
      | none => rw [hA] at hm; exact Option.noConfusion hm
      | some x =>
        rw [hA, Option.map_some'] at hm
        injection hm with hm
        subst hm
        have hmax := stepOf_max_run hA
        have hx : x ∈ candList (cvCand o s) (selRange s) := by
          obtain ⟨l₁, l₂, hdec, _, _⟩ := hmax
          rw [hdec]
          exact List.mem_append_right _ (List.mem_cons_self x l₂)
        obtain ⟨hiL, hcand⟩ := candList_mem hx
        obtain ⟨b, hb, hpe⟩ := cvCand_some hcand
        have hq : x.1 =
            ((cvFoldScores o s x.2.1).map fun y => y.1).sum /
              ((cvFoldScores o s x.2.1).length : ℚ) := congrArg Prod.fst hpe
        have hm2 : x.2.2 = b.2 := congrArg Prod.snd hpe
        have hinner := stepOf_max_run hb
        refine ⟨x.2.1, b.1, (mem_selRange.mp hiL).1, (mem_selRange.mp hiL).2, ?_, ?_⟩
        · rw [hm2]
          exact hinner
        · rw [← hq]
          exact hmax

/-- Witness for `cv_selection_characterization`: on an oracle whose fit
always fails, every candidate has zero successful folds, so the strategy
returns no model. -/
theorem cv_selection_characterization_witness :
    SelectorCV.select oracleNoFit selCV = none :=
  (cv_selection_characterization oracleNoFit selCV).1.mpr (Or.inr fun _ _ => rfl)

/-- C8 counterexample: the Constant strategy returns `base_model(n_constant)`
even when `n_constant` lies outside `[min_n, max_n)`: with `n_constant = 11`
and range `[2, 10)` it returns a model with `11` hidden states. -/
theorem constant_select_outside_range :
    SelectorConstant.select oracleAll selConst = some ⟨11, 0⟩ ∧
      ¬ ((⟨11, 0⟩ : HMM).nStates < selConst.max_n_components) :=
  ⟨rfl, by decide⟩

/-- C8 (amended): the BIC, DIC and CV strategies return either no model or a
model whose hidden-state count lies in `[min_n, max_n)`; the Constant strategy
returns either no model or a model with exactly `n_constant` hidden states
(which lies in the range only when `min_n ≤ n_constant < max_n`). -/
theorem select_state_count_characterization (o : HMMOracle) (s : ModelSelector) :
    (∀ m, SelectorBIC.select o s = some m →
      s.min_n_components ≤ m.nStates ∧ m.nStates < s.max_n_components) ∧
    (∀ m, SelectorDIC.select o s = some m →
      s.min_n_components ≤ m.nStates ∧ m.nStates < s.max_n_components) ∧
    (∀ m, SelectorCV.select o s = some m →
      s.min_n_components ≤ m.nStates ∧ m.nStates < s.max_n_components) ∧
    (∀ m, SelectorConstant.select o s = some m → m.nStates = s.n_constant) := by
  refine ⟨?_, ?_, ?_, ?_⟩
  · intro m hm
    rw [bicSelect_eq] at hm
    cases hA : (candList (bicCand o s) (selRange s)).foldl (stepOf betterMin) none with
    | none => rw [hA] at hm; exact Option.noConfusion hm
    | some x =>
      rw [hA, Option.map_some'] at hm
      injection hm with hm
      subst hm
      rcases stepOf_mem betterMin _ none x hA with h | h
      · exact Option.noConfusion h
      · obtain ⟨hiL, hcand⟩ := candList_mem h
        obtain ⟨model, logL, hf, hs, hpe⟩ := bicCand_some hcand
        have hm2 : x.2.2 = model := congrArg Prod.snd hpe
        have hst : x.2.2.nStates = x.2.1 := by
          rw [hm2]
          exact fit_nStates hf
        rw [hst]
        exact mem_selRange.mp hiL
  · intro m hm
    rw [dicSelect_eq] at hm
    cases hA : (candList (dicCand o s) (selRange s)).foldl (stepOf betterMax) none with
    | none => rw [hA] at hm; exact Option.noConfusion hm
    | some x =>
      rw [hA, Option.map_some'] at hm
      injection hm with hm
      subst hm
      rcases stepOf_mem betterMax _ none x hA with h | h
      · exact Option.noConfusion h
      · obtain ⟨hiL, hcand⟩ := candList_mem h
        obtain ⟨model, logL, hf, hs, hpe⟩ := dicCand_some hcand
        have hm2 : x.2.2 = model := congrArg Prod.snd hpe
        have hst : x.2.2.nStates = x.2.1 := by
          rw [hm2]
          exact fit_nStates hf
        rw [hst]
        exact mem_selRange.mp hiL
  · intro m hm
    by_cases hg : s.lengths.length < 2
    · exfalso
      have hsel : SelectorCV.select o s = none := by
        unfold SelectorCV.select
        rw [if_pos hg]
      rw [hsel] at hm
      exact Option.noConfusion hm
    · rw [cvSelect_eq o s hg] at hm
      cases hA : (candList (cvCand o s) (selRange s)).foldl (stepOf betterMax) none with
      | none => rw [hA] at hm; exact Option.noConfusion hm
      | some x =>
        rw [hA, Option.map_some'] at hm
        injection hm with hm
        subst hm
        rcases stepOf_mem betterMax _ none x hA with h | h
        · exact Option.noConfusion h
        · obtain ⟨hiL, hcand⟩ := candList_mem h
          obtain ⟨b, hb, hpe⟩ := cvCand_some hcand
          have hm2 : x.2.2 = b.2 := congrArg Prod.snd hpe
          rcases stepOf_mem betterMax _ none b hb with hbmem | hbmem
          · exact Option.noConfusion hbmem
          · obtain ⟨f, hfmem, hfc⟩ := List.mem_filterMap.mp hbmem
            obtain ⟨model, logL, hf, hs, hpe2⟩ := foldCand_some hfc
            have hb2 : b.2 = model := congrArg Prod.snd hpe2
            have hst : x.2.2.nStates = x.2.1 := by
              rw [hm2, hb2]
              exact fit_nStates hf
            rw [hst]
            exact mem_selRange.mp hiL
  · intro m hm
    unfold SelectorConstant.select ModelSelector.base_model at hm
    exact fit_nStates hm

/-- Witness for `select_state_count_characterization` via the Constant
strategy at a concrete input. -/
theorem select_state_count_characterization_witness :
    SelectorConstant.select oracleAll selA = some ⟨3, 0⟩ ∧
      (⟨3, 0⟩ : HMM).nStates = selA.n_constant :=
  ⟨rfl, (select_state_count_characterization oracleAll selA).2.2.2 ⟨3, 0⟩ rfl⟩

lemma getD_map_of_lt {α β : Type} (f : α → β) (l : List α) (k : ℕ) (hk : k < l.length)
    (d : α) (d2 : β) : (l.map f).getD k d2 = f (l.getD k d) := by
  rw [List.getD_eq_getElem?_getD, List.getElem?_map, List.getElem?_eq_getElem hk,
    List.getD_eq_getElem?_getD, List.getElem?_eq_getElem hk]
  rfl

/-- Models mapping with a single word, used by recognizer witnesses. -/
def modelsW : List (String × Option HMM) := [("A", some ⟨3, 0⟩)]

/-- Models mapping in which every word has no model. -/
def modelsNone : List (String × Option HMM) := [("A", none), ("B", none)]

lemma recognizeItem_map_fst (o : HMMOracle) (models : List (String × Option HMM))
    (item : Obs × List ℕ) :
    (recognizeItem o models item).map (fun e => e.1) = models.map (fun e => e.1) := by
  induction models with
  | nil => rfl
  | cons wm ms ih =>
    have hcons : recognizeItem o (wm :: ms) item =
        (match wm.2 with
         | none => (wm.1, (⊥ : WithBot ℚ))
         | some m =>
           match o.score m item.1 item.2 with
           | none => (wm.1, (⊥ : WithBot ℚ))
           | some v => (wm.1, (v : WithBot ℚ))) :: recognizeItem o ms item := rfl
    rw [hcons, List.map_cons, List.map_cons]
    have hhead : (match wm.2 with
         | none => (wm.1, (⊥ : WithBot ℚ))
         | some m =>
           match o.score m item.1 item.2 with
           | none => (wm.1, (⊥ : WithBot ℚ))
           | some v => (wm.1, (v : WithBot ℚ))).1 = wm.1 := by
      cases wm.2 with
      | none => rfl
      | some mdl =>
        show (match o.score mdl item.1 item.2 with
              | none => (wm.1, (⊥ : WithBot ℚ))
              | some v => (wm.1, (v : WithBot ℚ))).1 = wm.1
        cases o.score mdl item.1 item.2 <;> rfl
    rw [hhead, ih]

/-- C6 counterexample: with an empty models mapping and a non-empty test set,
`max` is taken over an empty mapping and raises `ValueError` (modelled by the
result `none`), so `recognize` does not return the two claimed lists. -/
theorem recognize_crashes_on_empty_models :
    recognize oracleAll [] [itemA] = none := rfl

/-- C6 (amended): whenever the models mapping is non-empty (or the test set is
empty), `recognize` returns two lists of length `testCorpus.size` aligned by
item index, and each guess is the first maximum of the corresponding
probability record in mapping iteration order. -/
theorem recognize_lengths_and_argmax (o : HMMOracle) (models : List (String × Option HMM))
    (ts : List (Obs × List ℕ)) (h : models ≠ [] ∨ ts = []) :
    ∃ probabilities guesses,
      recognize o models ts = some (probabilities, guesses) ∧
      probabilities.length = ts.length ∧ guesses.length = ts.length ∧
      ∀ k, k < ts.length →
        probabilities.getD k [] = recognizeItem o models (ts.getD k ([], [])) ∧
        ∃ c, maxByValue (probabilities.getD k []) = some c ∧
          guesses.getD k ("") = c.1 ∧
          IsFirstMaxBy (fun p => p.2) (probabilities.getD k []) c := by
  rcases h with h | rfl
  · refine ⟨ts.map (recognizeItem o models),
      ts.map fun item =>
        ((maxByValue (recognizeItem o models item)).map (fun c => c.1)).getD (""),
      recognize_eq o h ts, by simp, by simp, ?_⟩
    intro k hk
    have hp : (ts.map (recognizeItem o models)).getD k [] =
        recognizeItem o models (ts.getD k ([], [])) :=
      getD_map_of_lt _ ts k hk ([], []) []
    have hg : (ts.map fun item =>
        ((maxByValue (recognizeItem o models item)).map (fun c => c.1)).getD ("")).getD k ("") =
        ((maxByValue (recognizeItem o models (ts.getD k ([], [])))).map
          (fun c => c.1)).getD ("") :=
      getD_map_of_lt _ ts k hk ([], []) ("")
    obtain ⟨c, hc, hmax⟩ := maxByValue_spec (recognizeItem_ne_nil o h (ts.getD k ([], [])))
    refine ⟨hp, c, by rw [hp]; exact hc, ?_, by rw [hp]; exact hmax⟩
    rw [hg, hc]
    rfl
  · exact ⟨[], [], rfl, rfl, rfl, fun k hk => absurd hk (by simp)⟩

/-- Witness for `recognize_lengths_and_argmax` at a concrete input. -/
theorem recognize_lengths_and_argmax_witness :
    (modelsW ≠ [] ∨ ([itemA] : List (Obs × List ℕ)) = []) ∧
    (∃ probabilities guesses,
      recognize oracleAll modelsW [itemA] = some (probabilities, guesses) ∧
      probabilities.length = [itemA].length ∧ guesses.length = [itemA].length ∧
      ∀ k, k < [itemA].length →
        probabilities.getD k [] = recognizeItem oracleAll modelsW ([itemA].getD k ([], [])) ∧
        ∃ c, maxByValue (probabilities.getD k []) = some c ∧
          guesses.getD k ("") = c.1 ∧
          IsFirstMaxBy (fun p => p.2) (probabilities.getD k []) c) :=
  ⟨Or.inl (by decide),
    recognize_lengths_and_argmax oracleAll modelsW [itemA] (Or.inl (by decide))⟩

/-- C7: every produced probability record has exactly one entry per word of
the models mapping, in iteration order; a word whose model is missing, or
whose model fails to score the item, is recorded with `-infinity` (`⊥`); and
if the best guess's recorded value is `⊥` then every word's value is `⊥` and
the guess is the first word in iteration order. -/
theorem recognize_record_entries (o : HMMOracle) (models : List (String × Option HMM))
    (ts : List (Obs × List ℕ)) (probabilities : List (List (String × WithBot ℚ)))
    (guesses : List String)
    (h : recognize o models ts = some (probabilities, guesses))
    (k : ℕ) (hk : k < ts.length) :
    ((probabilities.getD k []).map (fun e => e.1) = models.map (fun e => e.1)) ∧
    (∀ (j : ℕ) (w : String), models[j]? = some (w, none) →
      (probabilities.getD k [])[j]? = some (w, (⊥ : WithBot ℚ))) ∧
    (∀ (j : ℕ) (w : String) (mdl : HMM), models[j]? = some (w, some mdl) →
      o.score mdl (ts.getD k ([], [])).1 (ts.getD k ([], [])).2 = none →
      (probabilities.getD k [])[j]? = some (w, (⊥ : WithBot ℚ))) ∧
    (∀ c, maxByValue (probabilities.getD k []) = some c →
      guesses.getD k ("") = c.1 ∧
      (c.2 = (⊥ : WithBot ℚ) →
        (∀ y ∈ probabilities.getD k [], y.2 = (⊥ : WithBot ℚ)) ∧
        (probabilities.getD k []).head? = some c)) := by
  have hmne : models ≠ [] := by
    intro hnil
    subst hnil
    have hts : ts ≠ [] := by
      intro hts
      subst hts
      exact absurd hk (by simp)
    rw [recognize_none_of_empty o hts] at h
    exact Option.noConfusion h
  have heq := recognize_eq o hmne ts
  rw [heq] at h
  injection h with h
  have h1 : ts.map (recognizeItem o models) = probabilities := congrArg Prod.fst h
  have h2 : (ts.map fun item =>
      ((maxByValue (recognizeItem o models item)).map (fun c => c.1)).getD ("")) = guesses :=
    congrArg Prod.snd h
  subst h1
  subst h2
  have hpk : (ts.map (recognizeItem o models)).getD k [] =
      recognizeItem o models (ts.getD k ([], [])) :=
    getD_map_of_lt _ ts k hk ([], []) []
  rw [hpk]
  refine ⟨?_, ?_, ?_, ?_⟩
  · exact recognizeItem_map_fst o models (ts.getD k ([], []))
  · intro j w hj
    unfold recognizeItem
    rw [List.getElem?_map, hj]
    rfl
  · intro j w mdl hj hs
    unfold recognizeItem
    rw [List.getElem?_map, hj, Option.map_some']
    simp only [hs]
  · intro c hc
    have hgk : (ts.map fun item =>
        ((maxByValue (recognizeItem o models item)).map (fun c => c.1)).getD ("")).getD k ("") =
        ((maxByValue (recognizeItem o models (ts.getD k ([], [])))).map
          (fun c => c.1)).getD ("") :=
      getD_map_of_lt _ ts k hk ([], []) ("")
    refine ⟨by rw [hgk, hc]; rfl, ?_⟩
    intro hbot
    obtain ⟨c2, hc2, hmax⟩ :=
      maxByValue_spec (recognizeItem_ne_nil o hmne (ts.getD k ([], [])))
    have hcc : c2 = c := by
      rw [hc2] at hc
      injection hc
    subst hcc
    obtain ⟨l₁, l₂, hdec, hlt, hle⟩ := hmax
    cases l₁ with
    | cons a as =>
      exfalso
      have ha : a.2 < c2.2 := hlt a (List.mem_cons_self a as)
      rw [hbot] at ha
      exact absurd ha (not_lt_bot)
    | nil =>
      simp only [List.nil_append] at hdec
      constructor
      · intro y hy
        rw [hdec] at hy
        rcases List.mem_cons.mp hy with rfl | hy
        · exact hbot
        · have hyb : y.2 ≤ c2.2 := hle y hy
          rw [hbot] at hyb
          exact le_bot_iff.mp hyb
      · rw [hdec]
        rfl

/-- Witness for `recognize_record_entries` at a concrete input. -/
theorem recognize_record_entries_witness :
    recognize oracleAll modelsNone [itemA] =
      some ([[("A", (⊥ : WithBot ℚ)), ("B", (⊥ : WithBot ℚ))]], ["A"]) ∧
    ((([[("A", (⊥ : WithBot ℚ)), ("B", (⊥ : WithBot ℚ))]].getD 0 []).map (fun e => e.1) =
        modelsNone.map (fun e => e.1)) ∧
      (∀ (j : ℕ) (w : String), modelsNone[j]? = some (w, none) →
        ([[("A", (⊥ : WithBot ℚ)), ("B", (⊥ : WithBot ℚ))]].getD 0 [])[j]? =
          some (w, (⊥ : WithBot ℚ))) ∧
      (∀ (j : ℕ) (w : String) (mdl : HMM), modelsNone[j]? = some (w, some mdl) →
        oracleAll.score mdl (([itemA] : List (Obs × List ℕ)).getD 0 ([], [])).1
          (([itemA] : List (Obs × List ℕ)).getD 0 ([], [])).2 = none →
        ([[("A", (⊥ : WithBot ℚ)), ("B", (⊥ : WithBot ℚ))]].getD 0 [])[j]? =
          some (w, (⊥ : WithBot ℚ))) ∧
      (∀ c, maxByValue ([[("A", (⊥ : WithBot ℚ)), ("B", (⊥ : WithBot ℚ))]].getD 0 []) =
          some c →
        (["A"] : List String).getD 0 ("") = c.1 ∧
        (c.2 = (⊥ : WithBot ℚ) →
          (∀ y ∈ [[("A", (⊥ : WithBot ℚ)), ("B", (⊥ : WithBot ℚ))]].getD 0 [],
            y.2 = (⊥ : WithBot ℚ)) ∧
          ([[("A", (⊥ : WithBot ℚ)), ("B", (⊥ : WithBot ℚ))]].getD 0 []).head? = some c))) := by
  have h : recognize oracleAll modelsNone [itemA] =
      some ([[("A", (⊥ : WithBot ℚ)), ("B", (⊥ : WithBot ℚ))]], ["A"]) := by
    simp [recognize, recognizeBody, recognizeItem, maxByValue, modelsNone, itemA, oracleAll]
  exact ⟨h, recognize_record_entries oracleAll modelsNone [itemA] _ _ h 0 (by decide)⟩

/-- C10 counterexample: with an empty models mapping and a non-empty test set
the `max` over the empty per-item mapping raises an uncaught `ValueError`
(modelled by the result `none`): the failure is NOT absorbed into data
sentinels in this edge case. -/
theorem recognize_abnormal_on_empty_models :
    recognize oracleNoFit [] [itemB] = none := rfl

/-- C10 (amended): `recognize` terminates normally whenever the models mapping
is non-empty or the test set is empty; fit/score failures and missing models
are absorbed as `-infinity` sentinels (see `recognize_record_entries`), but an
empty models mapping combined with a non-empty test set is a fatal error
path. -/
theorem recognize_total_when_models_present (o : HMMOracle)
    (models : List (String × Option HMM)) (ts : List (Obs × List ℕ))
    (h : models ≠ [] ∨ ts = []) : recognize o models ts ≠ none := by
  rcases h with h | rfl
  · rw [recognize_eq o h ts]
    exact fun hc => Option.noConfusion hc
  · exact fun hc => Option.noConfusion hc

/-- Witness for `recognize_total_when_models_present` at a concrete input. -/
theorem recognize_total_when_models_present_witness :
    (([("A", (none : Option HMM))] : List (String × Option HMM)) ≠ [] ∨
      ([itemB] : List (Obs × List ℕ)) = []) ∧
    recognize oracleAll [("A", (none : Option HMM))] [itemB] ≠ none :=
  ⟨Or.inl (by decide),
    recognize_total_when_models_present oracleAll [("A", none)] [itemB] (Or.inl (by decide))⟩

end ASL
